import Mathlib

/-!
# Verification of the OpenThread CLI UART transport (`src/src/cli/cli_uart.cpp`)

This file gives a shallow embedding of the two components implemented in
`cli_uart.cpp` and proves the specified properties about them:

* the **Output Ring** (`Uart::Output`, `Uart::Send`, `Uart::SendDoneTask`):
  a fixed-capacity circular transmit buffer driven by a one-outstanding-send
  driver protocol (`otPlatUartSend` / `otPlatUartSendDone`);
* the **Line Assembler** (`Uart::ReceiveTask`, `Uart::ProcessCommand`):
  the per-byte editing state machine that assembles command lines and hands
  them to the interpreter (`Interpreter::ProcessLine`).

Modelling conventions:

* The buffer capacities `kTxBufferSize` and `kRxBufferSize` are declared in
  `cli_uart.hpp`, which is not among the sources; the transmit capacity is
  therefore a parameter `C` throughout, and the receive capacity is the
  spec-modelled constant `kRxBufferSize` below.
* Byte buffers are modelled as total functions `Nat → Nat` (the C arrays,
  with unconstrained memory beyond any index actually written), bytes as
  `Nat` values.  Buffer cells are written with `Function.update`.
* The `uint16_t` fields of the class are modelled as `Nat`.  Every theorem
  about the transmit ring operates under the invariant
  `mSendLength ≤ mTxLength ≤ kTxBufferSize` (itself proved below), under
  which no 16-bit arithmetic in the source wraps, so `Nat` arithmetic with
  truncated subtraction agrees exactly with the machine arithmetic.  The
  one increment that can genuinely wrap in the source, `mRxLength++` on the
  unchecked receive path, is modelled with an explicit `% 65536`.
* Calls out of the component (`otPlatUartSend`, the echo `Output` calls made
  by the line assembler, `Interpreter::ProcessLine`) are captured as explicit
  return values / event traces rather than side effects.
* The POSIX-only `case 0x03: exit(EXIT_SUCCESS)` branch of `ReceiveTask` is
  compiled only under `OPENTHREAD_EXAMPLES_POSIX`; the embedded build, where
  that rule is absent, is modelled here.
-/

namespace CliUart

/-! ## The Output Ring (transmit side) -/

/-- The transmit-side state of class `Uart`: `mTxBuffer` (a `char` array of
size `kTxBufferSize`), `mTxHead`, `mTxLength` and `mSendLength`. -/
structure TxState where
  txBuffer : Nat → Nat
  txHead : Nat
  txLength : Nat
  sendLength : Nat

/-- `Uart::Uart`: the constructor zeroes `mTxHead`, `mTxLength` and
`mSendLength` (the array contents are modelled as zeroed). -/
def txInit : TxState :=
  { txBuffer := fun _ => 0, txHead := 0, txLength := 0, sendLength := 0 }

/-- Read `len` consecutive cells of `f` starting at index `start`
(no wrap-around): the span `f + start` of length `len` handed to a callee. -/
def contigRead (f : Nat → Nat) (start len : Nat) : List Nat :=
  (List.range len).map (fun i => f (start + i))

/-- Read `len` cells of `f` starting at `start`, wrapping modulo `C`:
the logical contents of a circular-buffer segment. -/
def modRead (C : Nat) (f : Nat → Nat) (start len : Nat) : List Nat :=
  (List.range len).map (fun i => f ((start + i) % C))

/-- `Uart::Send`: `VerifyOrExit(mSendLength == 0)`; otherwise set
`mSendLength` to the longest contiguous run starting at `mTxHead`
(`min(mTxLength, kTxBufferSize - mTxHead)`, written as in the source), and
if it is positive call `otPlatUartSend(mTxBuffer + mTxHead, mSendLength)`.
The second component is the span handed to `otPlatUartSend` (`none` when no
send is issued). -/
def Send (C : Nat) (s : TxState) : TxState × Option (List Nat) :=
  if s.sendLength ≠ 0 then (s, none)
  else
    let sl := if s.txLength > C - s.txHead then C - s.txHead else s.txLength
    ({ s with sendLength := sl },
     if 0 < sl then some (contigRead s.txBuffer s.txHead sl) else none)

/-- The copy loop of `Uart::Output`: for each byte,
`tail = (mTxHead + mTxLength) % kTxBufferSize; mTxBuffer[tail] = *aBuf++;
mTxLength++`.  Returns the final buffer and the final `mTxLength`. -/
def txWrite (C head : Nat) : (Nat → Nat) → Nat → List Nat → (Nat → Nat) × Nat
  | f, len, [] => (f, len)
  | f, len, b :: rest =>
    txWrite C head (Function.update f ((head + len) % C) b) (len + 1) rest

/-- `Uart::Output`: truncate the request to `remaining = kTxBufferSize -
mTxLength`, copy the accepted bytes at the ring tail, call `Send`, and
return the accepted count.  Result: (new state, accepted count, span handed
to `otPlatUartSend` by the inner `Send`, if any). -/
def Output (C : Nat) (s : TxState) (aBuf : List Nat) : TxState × Nat × Option (List Nat) :=
  let remaining := C - s.txLength
  let accepted := if aBuf.length > remaining then remaining else aBuf.length
  let w := txWrite C s.txHead s.txBuffer s.txLength (aBuf.take accepted)
  let r := Send C { s with txBuffer := w.1, txLength := w.2 }
  (r.1, accepted, r.2)

/-- `Uart::SendDoneTask`: advance `mTxHead` by `mSendLength` (mod capacity),
shrink `mTxLength` by the same amount, clear `mSendLength`, then re-run
`Send`.  The second component is the span the inner `Send` hands to
`otPlatUartSend`, if any. -/
def SendDoneTask (C : Nat) (s : TxState) : TxState × Option (List Nat) :=
  Send C { s with
             txHead := (s.txHead + s.sendLength) % C,
             txLength := s.txLength - s.sendLength,
             sendLength := 0 }

/-- Transmit-ring states reachable from the constructor through the three
operations of the class. -/
inductive TxReachable (C : Nat) : TxState → Prop where
  | init : TxReachable C txInit
  | output (s : TxState) (w : List Nat) :
      TxReachable C s → TxReachable C (Output C s w).1
  | send (s : TxState) : TxReachable C s → TxReachable C (Send C s).1
  | sendDone (s : TxState) : TxReachable C s → TxReachable C (SendDoneTask C s).1

/-- The queued-length part of the ring invariant:
`mSendLength ≤ mTxLength ≤ kTxBufferSize`. -/
def TxLenInv (C : Nat) (s : TxState) : Prop :=
  s.sendLength ≤ s.txLength ∧ s.txLength ≤ C

/-- The full ring invariant: head in range, `mSendLength ≤ mTxLength ≤
capacity`, and idleness implies emptiness. -/
def TxInvF (C : Nat) (s : TxState) : Prop :=
  s.txHead < C ∧ s.sendLength ≤ s.txLength ∧ s.txLength ≤ C ∧
    (s.sendLength = 0 → s.txLength = 0)

/-- The queued bytes not yet handed to the driver: the ring segment of
length `mTxLength - mSendLength` starting `mSendLength` past `mTxHead`. -/
def unsentBytes (C : Nat) (s : TxState) : List Nat :=
  modRead C s.txBuffer (s.txHead + s.sendLength) (s.txLength - s.sendLength)

/-- Run a sequence of `Output` calls, concatenating the spans handed to
`otPlatUartSend` along the way. -/
def runWrites (C : Nat) : TxState → List (List Nat) → TxState × List Nat
  | s, [] => (s, [])
  | s, w :: ws =>
    let r := Output C s w
    let d := runWrites C r.1 ws
    (d.1, (r.2.2.getD []) ++ d.2)

/-- Simulate `otPlatUartSendDone` after every issued send until the ring is
idle (fuel-bounded), concatenating the spans the re-armed `Send` calls hand
to `otPlatUartSend`. -/
def drainAll (C : Nat) : TxState → Nat → TxState × List Nat
  | s, 0 => (s, [])
  | s, fuel + 1 =>
    if s.sendLength = 0 then (s, [])
    else
      let r := SendDoneTask C s
      let d := drainAll C r.1 fuel
      (d.1, (r.2.getD []) ++ d.2)

/-! ## The Line Assembler (receive side) -/

/-- Modelled from the spec: the receive line buffer capacity constant
`kRxBufferSize` is declared in `cli_uart.hpp`, which is not among the
sources ("a fixed-capacity mutable sequence of bytes (capacity = max
command line length)").  Its concrete value is irrelevant to the results
below — the unchecked receive path overflows any finite capacity — and 512
matches the upstream header. -/
def kRxBufferSize : Nat := 512

/-- The receive-side state of class `Uart`: `mRxBuffer` (a `char` array of
size `kRxBufferSize`) and `mRxLength`. -/
structure RxState where
  rxBuffer : Nat → Nat
  rxLength : Nat

/-- `Uart::Uart`: the constructor zeroes `mRxLength` (the array contents
are modelled as zeroed). -/
def rxInit : RxState := { rxBuffer := fun _ => 0, rxLength := 0 }

/-- Calls the line assembler makes to external collaborators, recorded as a
trace: `echo bs` is a call `Output(bs, bs.length)` into the Output Ring,
`processLine content len` is the call
`mInterpreter.ProcessLine(mRxBuffer, mRxLength, *this)` with the buffer
prefix `content` of length `len`. -/
inductive RxEvent where
  | echo : List Nat → RxEvent
  | processLine : List Nat → Nat → RxEvent
  deriving DecidableEq

/-- One defensive strip step of `Uart::ProcessCommand`:
`if (mRxBuffer[mRxLength - 1] == v) { mRxBuffer[--mRxLength] = 0; }`.
(When `mRxLength = 0` the source indexes `mRxBuffer[-1]`, which is
undefined behaviour in C; the embedding reads index `0` there.  Theorems
below exclude that corner, which is unreachable through `ReceiveTask`.) -/
def stripIf (v : Nat) (f : Nat → Nat) (len : Nat) : (Nat → Nat) × Nat :=
  if f (len - 1) = v then (Function.update f (len - 1) 0, len - 1) else (f, len)

/-- `Uart::ProcessCommand`: strip one trailing `'\n'` (10), then one
trailing `'\r'` (13), call `ProcessLine` with the resulting buffer and
length, and reset `mRxLength` to `0`. -/
def ProcessCommand (s : RxState) : RxState × RxEvent :=
  let p1 := stripIf 10 s.rxBuffer s.rxLength
  let p2 := stripIf 13 p1.1 p1.2
  ({ rxBuffer := p2.1, rxLength := 0 },
   RxEvent.processLine (contigRead p2.1 0 p2.2) p2.2)

/-- One iteration of the `ReceiveTask` loop on byte `b`:
CR (13) / LF (10) echo `CRNL`, run `ProcessCommand` on a non-empty line
(after writing the `'\0'` terminator at `mRxBuffer[mRxLength]`) and echo
the prompt `"> "`; backspace (8) / delete (127) on a non-empty line echo
`sEraseString` and erase one byte; any other byte is echoed and stored via
`mRxBuffer[mRxLength++]` — with no bound check, and with the `uint16_t`
wrap of the increment made explicit.  (The POSIX-only Ctrl-C case is
compiled out, see the header comment.) -/
def receiveByte (s : RxState) (b : Nat) : RxState × List RxEvent :=
  if b = 13 ∨ b = 10 then
    if 0 < s.rxLength then
      let r := ProcessCommand { s with rxBuffer := Function.update s.rxBuffer s.rxLength 0 }
      (r.1, [RxEvent.echo [13, 10], r.2, RxEvent.echo [62, 32]])
    else
      (s, [RxEvent.echo [13, 10], RxEvent.echo [62, 32]])
  else if b = 8 ∨ b = 127 then
    if 0 < s.rxLength then
      ({ rxBuffer := Function.update s.rxBuffer (s.rxLength - 1) 0,
         rxLength := s.rxLength - 1 },
       [RxEvent.echo [8, 32, 8]])
    else
      (s, [])
  else
    ({ rxBuffer := Function.update s.rxBuffer s.rxLength b,
       rxLength := (s.rxLength + 1) % 65536 },
     [RxEvent.echo [b]])

/-- `Uart::ReceiveTask`: process the delivered bytes in order, concatenating
the emitted traces. -/
def ReceiveTask : RxState → List Nat → RxState × List RxEvent
  | s, [] => (s, [])
  | s, b :: rest =>
    let r := receiveByte s b
    let t := ReceiveTask r.1 rest
    (t.1, r.2 ++ t.2)

/-- Strip at most one trailing LF and then at most one trailing CR from a
line — the denotation, on the content list, of the two defensive strip
steps of `ProcessCommand`. -/
def stripLine (l : List Nat) : List Nat :=
  let l1 := if l.getLast? = some 10 then l.dropLast else l
  if l1.getLast? = some 13 then l1.dropLast else l1

/-- A concrete ring state with two bytes queued and one in flight, used to
instantiate theorems at a concrete input. -/
def txSampleBusy : TxState := ⟨fun _ => 0, 0, 2, 1⟩

/-- A concrete idle ring state with three bytes queued starting at head 1,
used to instantiate theorems at a concrete input. -/
def txSampleIdle : TxState := ⟨fun i => i, 1, 3, 0⟩

/-- A concrete line-assembler state holding the two-byte line `"AA"`, used
to instantiate theorems at a concrete input. -/
def rxSampleAA : RxState := ⟨fun _ => 65, 2⟩

/-- A concrete line-assembler state holding the two-byte line `"AB"`, used
to instantiate theorems at a concrete input. -/
def rxSampleAB : RxState := ⟨fun i => 65 + i, 2⟩

/-! ## Basic facts about span reads and the copy loop -/

lemma contigRead_length (f : Nat → Nat) (start len : Nat) :
    (contigRead f start len).length = len := by
  simp [contigRead]

lemma modRead_length (C : Nat) (f : Nat → Nat) (start len : Nat) :
    (modRead C f start len).length = len := by
  simp [modRead]

lemma modRead_zero (C : Nat) (f : Nat → Nat) (start : Nat) :
    modRead C f start 0 = [] := by
  simp [modRead]

lemma modRead_succ (C : Nat) (f : Nat → Nat) (start n : Nat) :
    modRead C f start (n + 1) = modRead C f start n ++ [f ((start + n) % C)] := by
  simp [modRead, List.range_succ]

lemma contigRead_succ (f : Nat → Nat) (start n : Nat) :
    contigRead f start (n + 1) = contigRead f start n ++ [f (start + n)] := by
  simp [contigRead, List.range_succ]

lemma modRead_split (C : Nat) (f : Nat → Nat) (start m n : Nat) :
    modRead C f start (m + n) = modRead C f start m ++ modRead C f (start + m) n := by
  induction n with
  | zero => simp [modRead]
  | succ k ih =>
    have h1 : m + (k + 1) = (m + k) + 1 := by omega
    rw [h1, modRead_succ, ih, modRead_succ, List.append_assoc]
    have h2 : start + (m + k) = start + m + k := by omega
    rw [h2]

lemma mod_add_inj (C x a b : Nat) (ha : a < C) (hb : b < C)
    (h : (x + a) % C = (x + b) % C) : a = b := by
  have h2 : a ≡ b [MOD C] := Nat.ModEq.add_left_cancel' x h
  calc a = a % C := (Nat.mod_eq_of_lt ha).symm
    _ = b % C := h2
    _ = b := Nat.mod_eq_of_lt hb

lemma modRead_update_out (C : Nat) (f : Nat → Nat) (p v start len : Nat)
    (h : ∀ i, i < len → (start + i) % C ≠ p) :
    modRead C (Function.update f p v) start len = modRead C f start len := by
  refine List.map_congr_left ?_
  intro i hi
  rw [List.mem_range] at hi
  exact Function.update_noteq (h i hi) v f

lemma contigRead_update_out (f : Nat → Nat) (p v start len : Nat)
    (h : ∀ i, i < len → start + i ≠ p) :
    contigRead (Function.update f p v) start len = contigRead f start len := by
  refine List.map_congr_left ?_
  intro i hi
  rw [List.mem_range] at hi
  exact Function.update_noteq (h i hi) v f

lemma modRead_start_mod (C : Nat) (f : Nat → Nat) (start len : Nat) :
    modRead C f (start % C) len = modRead C f start len := by
  refine List.map_congr_left ?_
  intro i _
  rw [Nat.mod_add_mod]

lemma contigRead_eq_modRead (C : Nat) (f : Nat → Nat) (start len : Nat)
    (h : start + len ≤ C) :
    contigRead f start len = modRead C f start len := by
  refine List.map_congr_left ?_
  intro i hi
  rw [List.mem_range] at hi
  rw [Nat.mod_eq_of_lt (by omega)]

lemma txWrite_snd (C head : Nat) (w : List Nat) : ∀ (f : Nat → Nat) (len : Nat),
    (txWrite C head f len w).2 = len + w.length := by
  induction w with
  | nil => intro f len; simp [txWrite]
  | cons b rest ih =>
    intro f len
    rw [txWrite, ih]
    simp; omega

lemma txWrite_out (C head p : Nat) (w : List Nat) : ∀ (f : Nat → Nat) (len : Nat),
    (∀ j, j < w.length → (head + (len + j)) % C ≠ p) →
    (txWrite C head f len w).1 p = f p := by
  induction w with
  | nil => intro f len _; simp [txWrite]
  | cons b rest ih =>
    intro f len hp
    rw [txWrite, ih _ (len + 1) ?_]
    · refine Function.update_noteq ?_ b f
      have h0 := hp 0 (by simp)
      intro hcontra
      exact h0 (by simpa using hcontra.symm)
    · intro j hj
      have hj1 := hp (j + 1) (by simp; omega)
      intro hcontra
      refine hj1 ?_
      have he : head + (len + (j + 1)) = head + (len + 1 + j) := by omega
      rw [he, hcontra]

lemma txWrite_unsent (C head sl : Nat) (w : List Nat) : ∀ (f : Nat → Nat) (len : Nat),
    len + w.length ≤ C → sl ≤ len →
    modRead C (txWrite C head f len w).1 (head + sl) (len + w.length - sl)
      = modRead C f (head + sl) (len - sl) ++ w := by
  induction w with
  | nil => intro f len _ _; simp [txWrite]
  | cons b rest ih =>
    intro f len hC hsl
    have hlen : len < C := by simp at hC; omega
    rw [txWrite]
    have hn : len + (b :: rest).length - sl = (len + 1) + rest.length - sl := by
      simp; omega
    rw [hn, ih _ (len + 1) (by simp at hC ⊢; omega) (by omega)]
    have h1 : (len + 1) - sl = (len - sl) + 1 := by omega
    rw [h1, modRead_succ]
    have h2 : head + sl + (len - sl) = head + len := by omega
    rw [h2, Function.update_same]
    rw [modRead_update_out C f ((head + len) % C) b (head + sl) (len - sl) ?_]
    · rw [List.append_assoc]; rfl
    · intro i hi hcontra
      have hab : sl + i = len := by
        refine mod_add_inj C head (sl + i) len (by omega) hlen ?_
        rw [← Nat.add_assoc]
        exact hcontra
      omega

lemma txWrite_at (C head : Nat) (w : List Nat) : ∀ (f : Nat → Nat) (len i : Nat),
    len + w.length ≤ C → i < w.length →
    (txWrite C head f len w).1 ((head + (len + i)) % C) = w.getD i 0 := by
  induction w with
  | nil => intro f len i _ hi; simp at hi
  | cons b rest ih =>
    intro f len i hC hi
    rw [txWrite]
    match i with
    | 0 =>
      rw [txWrite_out C head _ rest _ (len + 1) ?_]
      · simp
      · intro j hj hcontra
        have : (len + 1) + j = len + 0 := by
          refine mod_add_inj C head ((len + 1) + j) (len + 0) ?_ ?_ ?_
          · simp at hC; omega
          · simp at hC; omega
          · rw [← Nat.add_assoc] at hcontra ⊢
            simpa using hcontra
        omega
    | Nat.succ i0 =>
      have he : head + (len + (i0 + 1)) = head + ((len + 1) + i0) := by omega
      rw [he, ih _ (len + 1) i0 (by simp at hC ⊢; omega) (by simp at hi; omega)]
      simp

/-! ## Structure of `Send`, `Output` and `SendDoneTask` -/

lemma Send_pos (C : Nat) (s : TxState) (h : s.sendLength ≠ 0) : Send C s = (s, none) := by
  unfold Send
  simp [h]

lemma Send_frame (C : Nat) (s : TxState) :
    (Send C s).1.txHead = s.txHead ∧ (Send C s).1.txLength = s.txLength
      ∧ (Send C s).1.txBuffer = s.txBuffer := by
  unfold Send
  split <;> simp

lemma Output_eq (C : Nat) (s : TxState) (w : List Nat) :
    Output C s w =
      ((Send C { s with
          txBuffer := (txWrite C s.txHead s.txBuffer s.txLength
            (w.take (if w.length > C - s.txLength then C - s.txLength else w.length))).1,
          txLength := (txWrite C s.txHead s.txBuffer s.txLength
            (w.take (if w.length > C - s.txLength then C - s.txLength else w.length))).2 }).1,
       (if w.length > C - s.txLength then C - s.txLength else w.length),
       (Send C { s with
          txBuffer := (txWrite C s.txHead s.txBuffer s.txLength
            (w.take (if w.length > C - s.txLength then C - s.txLength else w.length))).1,
          txLength := (txWrite C s.txHead s.txBuffer s.txLength
            (w.take (if w.length > C - s.txLength then C - s.txLength else w.length))).2 }).2) :=
  rfl

/-- Behaviour of `Send` from an idle ring: the state is otherwise framed,
the new `mSendLength` stays within `mTxLength`, idleness still implies
emptiness, and the emitted span is exactly the head of the queued bytes:
emitted ++ still-unsent = previously-unsent. -/
lemma Send_zero_spec (C : Nat) (s : TxState) (h0 : s.sendLength = 0)
    (hh : s.txHead < C) (hl : s.txLength ≤ C) :
    ((Send C s).2.getD []) ++ unsentBytes C (Send C s).1 = unsentBytes C s
    ∧ (Send C s).1.sendLength ≤ (Send C s).1.txLength
    ∧ ((Send C s).1.sendLength = 0 → (Send C s).1.txLength = 0) := by
  obtain ⟨f, hd, tl, q⟩ := s
  simp only at h0 hh hl
  subst h0
  by_cases htl : tl > C - hd
  · have h1 : Send C ⟨f, hd, tl, 0⟩ =
        (⟨f, hd, tl, C - hd⟩, some (contigRead f hd (C - hd))) := by
      unfold Send
      simp [htl, Nat.sub_pos_of_lt hh]
    rw [h1]
    refine ⟨?_, by simp; omega, by simp; omega⟩
    simp only [Option.getD_some, unsentBytes]
    have h2 : hd + 0 = hd := by omega
    have h3 : tl - 0 = tl := by omega
    rw [h2, h3]
    rw [contigRead_eq_modRead C f hd (C - hd) (by omega)]
    have h4 : tl = (C - hd) + (tl - (C - hd)) := by omega
    conv_rhs => rw [h4]
    rw [modRead_split]
  · by_cases hpos : 0 < tl
    · have h1 : Send C ⟨f, hd, tl, 0⟩ =
          (⟨f, hd, tl, tl⟩, some (contigRead f hd tl)) := by
        unfold Send
        simp [htl, hpos]
      rw [h1]
      refine ⟨?_, by simp, by simp⟩
      simp only [Option.getD_some, unsentBytes]
      have h2 : hd + 0 = hd := by omega
      have h3 : tl - 0 = tl := by omega
      rw [h2, h3]
      rw [contigRead_eq_modRead C f hd tl (by omega)]
      simp [modRead_zero]
    · have h0 : tl = 0 := by omega
      subst h0
      have h1 : Send C ⟨f, hd, 0, 0⟩ = (⟨f, hd, 0, 0⟩, none) := by
        unfold Send
        simp
      rw [h1]
      simp

/-- `Send` preserves the full ring invariant. -/
lemma Send_inv (C : Nat) (s : TxState) (hh : s.txHead < C)
    (hs : s.sendLength ≤ s.txLength) (hl : s.txLength ≤ C) :
    TxInvF C (Send C s).1 := by
  obtain ⟨hH, hL, hB⟩ := Send_frame C s
  by_cases h0 : s.sendLength = 0
  · obtain ⟨-, h2, h3⟩ := Send_zero_spec C s h0 hh hl
    exact ⟨by rw [hH]; exact hh, h2, by rw [hL]; exact hl, h3⟩
  · rw [Send_pos C s h0]
    exact ⟨hh, hs, hl, fun hc => absurd hc h0⟩

/-- `Output` without truncation (`w.length ≤ capacity - mTxLength`):
book-keeping of the queued bytes — emitted span ++ still-unsent =
previously-unsent ++ newly-written — plus invariant preservation and the
growth of `mTxLength`. -/
lemma Output_step (C : Nat) (s : TxState) (w : List Nat) (hI : TxInvF C s)
    (hw : w.length ≤ C - s.txLength) :
    ((Output C s w).2.2.getD []) ++ unsentBytes C (Output C s w).1 = unsentBytes C s ++ w
    ∧ TxInvF C (Output C s w).1
    ∧ (Output C s w).1.txLength = s.txLength + w.length := by
  obtain ⟨f, hd, tl, q⟩ := s
  obtain ⟨hh, hs, hl, hidle⟩ := hI
  simp only at hh hs hl hidle hw ⊢
  have hacc : ¬ (w.length > C - tl) := by omega
  rw [Output_eq, if_neg hacc, List.take_length]
  have hlen1 : (txWrite C hd f tl w).2 = tl + w.length := txWrite_snd C hd w f tl
  have hunsent1 : unsentBytes C ⟨(txWrite C hd f tl w).1, hd, (txWrite C hd f tl w).2, q⟩
      = unsentBytes C ⟨f, hd, tl, q⟩ ++ w := by
    show modRead C (txWrite C hd f tl w).1 (hd + q) ((txWrite C hd f tl w).2 - q) = _
    rw [hlen1]
    exact txWrite_unsent C hd q w f tl (by omega) hs
  by_cases h0 : q = 0
  · obtain ⟨hA, hB, hC2⟩ :=
      Send_zero_spec C ⟨(txWrite C hd f tl w).1, hd, (txWrite C hd f tl w).2, q⟩ h0 hh
        (by show (txWrite C hd f tl w).2 ≤ C; omega)
    obtain ⟨hH, hL, _⟩ := Send_frame C ⟨(txWrite C hd f tl w).1, hd, (txWrite C hd f tl w).2, q⟩
    refine ⟨by rw [hA, hunsent1], ?_, by rw [hL]; show (txWrite C hd f tl w).2 = tl + w.length; omega⟩
    exact Send_inv C _ hh (by show q ≤ (txWrite C hd f tl w).2; omega)
      (by show (txWrite C hd f tl w).2 ≤ C; omega)
  · rw [Send_pos C ⟨(txWrite C hd f tl w).1, hd, (txWrite C hd f tl w).2, q⟩ h0]
    refine ⟨by simpa using hunsent1, ?_, hlen1⟩
    exact ⟨hh, by show q ≤ (txWrite C hd f tl w).2; omega,
      by show (txWrite C hd f tl w).2 ≤ C; omega, fun hc => absurd hc h0⟩

/-- `SendDoneTask`: book-keeping of the queued bytes — the span the re-armed
`Send` emits ++ still-unsent = previously-unsent — plus invariant
preservation and the shrink of `mTxLength`. -/
lemma SendDone_step (C : Nat) (s : TxState) (hC : 0 < C) (hI : TxInvF C s) :
    ((SendDoneTask C s).2.getD []) ++ unsentBytes C (SendDoneTask C s).1 = unsentBytes C s
    ∧ TxInvF C (SendDoneTask C s).1
    ∧ (SendDoneTask C s).1.txLength = s.txLength - s.sendLength := by
  obtain ⟨f, hd, tl, q⟩ := s
  obtain ⟨hh, hs, hl, hidle⟩ := hI
  simp only at hh hs hl hidle ⊢
  have hh1 : ((hd + q) % C) < C := Nat.mod_lt _ hC
  have hl1 : tl - q ≤ C := by omega
  have hunsent1 : unsentBytes C ⟨f, (hd + q) % C, tl - q, 0⟩ = unsentBytes C ⟨f, hd, tl, q⟩ := by
    show modRead C f ((hd + q) % C + 0) (tl - q - 0) = _
    rw [Nat.add_zero, Nat.sub_zero, modRead_start_mod]
    rfl
  have hSD : SendDoneTask C ⟨f, hd, tl, q⟩ = Send C ⟨f, (hd + q) % C, tl - q, 0⟩ := rfl
  obtain ⟨hA, hB, hC2⟩ := Send_zero_spec C ⟨f, (hd + q) % C, tl - q, 0⟩ rfl hh1 hl1
  obtain ⟨hH, hL, hBuf⟩ := Send_frame C ⟨f, (hd + q) % C, tl - q, 0⟩
  rw [hSD]
  exact ⟨by rw [hA, hunsent1], Send_inv C _ hh1 (Nat.zero_le _) hl1, by rw [hL]⟩

/-- `Output` with arbitrary (possibly truncated) input preserves the full
ring invariant. -/
lemma Output_inv_any (C : Nat) (s : TxState) (w : List Nat) (hI : TxInvF C s) :
    TxInvF C (Output C s w).1 := by
  obtain ⟨f, hd, tl, q⟩ := s
  obtain ⟨hh, hs, hl, hidle⟩ := hI
  simp only at hh hs hl hidle ⊢
  rw [Output_eq]
  have hacc_le : (if w.length > C - tl then C - tl else w.length) ≤ C - tl := by
    split <;> omega
  have htake : (w.take (if w.length > C - tl then C - tl else w.length)).length
      ≤ C - tl := by
    refine le_trans ?_ hacc_le
    simp [List.length_take]
  have hlen1 : (txWrite C hd f tl (w.take (if w.length > C - tl then C - tl else w.length))).2
      = tl + (w.take (if w.length > C - tl then C - tl else w.length)).length :=
    txWrite_snd C hd _ f tl
  exact Send_inv C _ hh (by show q ≤ (txWrite C hd f tl _).2; rw [hlen1]; omega)
    (by show (txWrite C hd f tl _).2 ≤ C; rw [hlen1]; omega)

/-- Every state reachable from the constructor satisfies the full ring
invariant. -/
lemma reachable_inv (C : Nat) (hC : 0 < C) (s : TxState) (h : TxReachable C s) :
    TxInvF C s := by
  induction h with
  | init => exact ⟨hC, Nat.le_refl 0, Nat.zero_le C, fun _ => rfl⟩
  | output s w _ ih => exact Output_inv_any C s w ih
  | send s _ ih => exact Send_inv C s ih.1 ih.2.1 ih.2.2.1
  | sendDone s _ ih => exact (SendDone_step C s hC ih).2.1

/-- Running a sequence of `Output` calls whose total length fits in the
free space: the spans handed to `otPlatUartSend` along the way, followed by
the bytes still queued, are exactly the previously-queued bytes followed by
everything written, and the invariant is preserved. -/
lemma runWrites_spec (C : Nat) (ws : List (List Nat)) : ∀ (s : TxState), TxInvF C s →
    s.txLength + (ws.map List.length).sum ≤ C →
    ((runWrites C s ws).2 ++ unsentBytes C (runWrites C s ws).1
       = unsentBytes C s ++ ws.flatten
     ∧ TxInvF C (runWrites C s ws).1) := by
  induction ws with
  | nil =>
    intro s hI _
    rw [runWrites]
    exact ⟨by simp, hI⟩
  | cons w ws ih =>
    intro s hI hsum
    rw [runWrites]
    obtain ⟨hA, hI1, hlen1⟩ := Output_step C s w hI (by simp at hsum; omega)
    obtain ⟨hB, hI2⟩ := ih (Output C s w).1 hI1 (by rw [hlen1]; simp at hsum ⊢; omega)
    refine ⟨?_, hI2⟩
    show ((Output C s w).2.2.getD [] ++ (runWrites C (Output C s w).1 ws).2)
        ++ unsentBytes C (runWrites C (Output C s w).1 ws).1 = _
    rw [List.append_assoc, hB, ← List.append_assoc, hA, List.append_assoc,
      List.flatten_cons]

/-- Draining the ring by simulating `otPlatUartSendDone` after every issued
send, with fuel at least `mTxLength`: the collected spans followed by the
bytes still queued are exactly the previously-queued bytes, and the ring
ends empty and idle. -/
lemma drainAll_spec (C : Nat) (hC : 0 < C) : ∀ (fuel : Nat) (s : TxState), TxInvF C s →
    s.txLength ≤ fuel →
    ((drainAll C s fuel).2 ++ unsentBytes C (drainAll C s fuel).1 = unsentBytes C s
     ∧ (drainAll C s fuel).1.txLength = 0 ∧ (drainAll C s fuel).1.sendLength = 0) := by
  intro fuel
  induction fuel with
  | zero =>
    intro s hI hf
    have h0 : s.txLength = 0 := by omega
    have h1 : s.sendLength = 0 := by
      have := hI.2.1
      omega
    rw [drainAll]
    exact ⟨by simp, h0, h1⟩
  | succ fuel ih =>
    intro s hI hf
    rw [drainAll]
    by_cases h0 : s.sendLength = 0
    · rw [if_pos h0]
      exact ⟨by simp, hI.2.2.2 h0, h0⟩
    · rw [if_neg h0]
      obtain ⟨hA, hI1, hlen1⟩ := SendDone_step C s hC hI
      obtain ⟨hB, h2, h3⟩ := ih (SendDoneTask C s).1 hI1 (by rw [hlen1]; omega)
      refine ⟨?_, h2, h3⟩
      show ((SendDoneTask C s).2.getD [] ++ (drainAll C (SendDoneTask C s).1 fuel).2)
          ++ unsentBytes C (drainAll C (SendDoneTask C s).1 fuel).1 = _
      rw [List.append_assoc, hB, hA]

lemma Send_lenInv (C : Nat) (s : TxState) (h : TxLenInv C s) : TxLenInv C (Send C s).1 := by
  obtain ⟨h1, h2⟩ := h
  obtain ⟨hH, hL, hB⟩ := Send_frame C s
  refine ⟨?_, by rw [hL]; exact h2⟩
  rw [hL]
  by_cases h0 : s.sendLength = 0
  · have hsl : (Send C s).1.sendLength
        = if s.txLength > C - s.txHead then C - s.txHead else s.txLength := by
      unfold Send
      rw [if_neg (by simp [h0])]
    rw [hsl]
    split <;> omega
  · rw [Send_pos C s h0]
    exact h1

lemma Output_lenInv (C : Nat) (s : TxState) (w : List Nat) (h : TxLenInv C s) :
    TxLenInv C (Output C s w).1 := by
  obtain ⟨h1, h2⟩ := h
  rw [Output_eq]
  have hacc : (if w.length > C - s.txLength then C - s.txLength else w.length)
      ≤ C - s.txLength := by
    split <;> omega
  have htake : (w.take (if w.length > C - s.txLength then C - s.txLength else w.length)).length
      ≤ C - s.txLength := by
    refine le_trans ?_ hacc
    simp [List.length_take]
  have hsnd := txWrite_snd C s.txHead
    (w.take (if w.length > C - s.txLength then C - s.txLength else w.length)) s.txBuffer s.txLength
  refine Send_lenInv C _ ⟨?_, ?_⟩
  · show s.sendLength ≤ (txWrite C s.txHead s.txBuffer s.txLength _).2
    rw [hsnd]; omega
  · show (txWrite C s.txHead s.txBuffer s.txLength _).2 ≤ C
    rw [hsnd]; omega

lemma SendDone_lenInv (C : Nat) (s : TxState) (h : TxLenInv C s) :
    TxLenInv C (SendDoneTask C s).1 := by
  obtain ⟨h1, h2⟩ := h
  unfold SendDoneTask
  exact Send_lenInv C _ ⟨by show (0:Nat) ≤ s.txLength - s.sendLength; omega,
    by show s.txLength - s.sendLength ≤ C; omega⟩

/-! ## The claims about the Output Ring -/

/-- **C3**: the transmit-ring invariant `mSendLength ≤ mTxLength ≤
kTxBufferSize` holds after construction and is preserved by `Output`,
`Send` and `SendDoneTask`. -/
theorem tx_length_invariant_preserved (C : Nat) :
    (txInit.sendLength ≤ txInit.txLength ∧ txInit.txLength ≤ C)
    ∧ (∀ (s : TxState) (w : List Nat), s.sendLength ≤ s.txLength → s.txLength ≤ C →
        (Output C s w).1.sendLength ≤ (Output C s w).1.txLength
          ∧ (Output C s w).1.txLength ≤ C)
    ∧ (∀ s : TxState, s.sendLength ≤ s.txLength → s.txLength ≤ C →
        (Send C s).1.sendLength ≤ (Send C s).1.txLength ∧ (Send C s).1.txLength ≤ C)
    ∧ (∀ s : TxState, s.sendLength ≤ s.txLength → s.txLength ≤ C →
        (SendDoneTask C s).1.sendLength ≤ (SendDoneTask C s).1.txLength
          ∧ (SendDoneTask C s).1.txLength ≤ C) := by
  refine ⟨⟨Nat.le_refl 0, Nat.zero_le C⟩, ?_, ?_, ?_⟩
  · intro s w h1 h2
    exact Output_lenInv C s w ⟨h1, h2⟩
  · intro s h1 h2
    exact Send_lenInv C s ⟨h1, h2⟩
  · intro s h1 h2
    exact SendDone_lenInv C s ⟨h1, h2⟩

/-- Witness for **C3** at a concrete instance. -/
theorem tx_length_invariant_preserved_witness :
    txInit.sendLength ≤ txInit.txLength ∧ txInit.txLength ≤ 4
    ∧ ((Output 4 txInit [1, 2, 3]).1.sendLength ≤ (Output 4 txInit [1, 2, 3]).1.txLength
        ∧ (Output 4 txInit [1, 2, 3]).1.txLength ≤ 4) :=
  ⟨by decide, by decide,
    (tx_length_invariant_preserved 4).2.1 txInit [1, 2, 3] (by decide) (by decide)⟩

/-- **C4**: the send-pump is a no-op when a send is in flight; from an idle
state with queued bytes it marks `min(mTxLength, kTxBufferSize - mTxHead)`
bytes in flight and hands exactly that contiguous span starting at
`mTxHead` to `otPlatUartSend`; with nothing queued it stays idle; and a
zero-length span is never handed to `otPlatUartSend`. -/
theorem send_pump_spec (C : Nat) (s : TxState) :
    (0 < s.sendLength → Send C s = (s, none))
    ∧ (s.sendLength = 0 → s.txHead < C → 0 < s.txLength →
        (Send C s).1.sendLength = min s.txLength (C - s.txHead)
        ∧ (Send C s).2
            = some (contigRead s.txBuffer s.txHead (min s.txLength (C - s.txHead))))
    ∧ (s.sendLength = 0 → s.txLength = 0 → Send C s = (s, none))
    ∧ (∀ bs : List Nat, (Send C s).2 = some bs → 0 < bs.length) := by
  obtain ⟨f, hd, tl, q⟩ := s
  refine ⟨?_, ?_, ?_, ?_⟩
  · intro hq
    exact Send_pos C _ (by simp only at hq ⊢; omega)
  · intro h0 hh htl
    simp only at h0 hh htl
    subst h0
    by_cases hgt : tl > C - hd
    · have h1 : Send C ⟨f, hd, tl, 0⟩ =
          (⟨f, hd, tl, C - hd⟩, some (contigRead f hd (C - hd))) := by
        unfold Send
        simp [hgt, Nat.sub_pos_of_lt hh]
      have hmin : min tl (C - hd) = C - hd := by omega
      rw [h1, hmin]
      exact ⟨rfl, rfl⟩
    · have h1 : Send C ⟨f, hd, tl, 0⟩ =
          (⟨f, hd, tl, tl⟩, some (contigRead f hd tl)) := by
        unfold Send
        simp [hgt, htl]
      have hmin : min tl (C - hd) = tl := by omega
      rw [h1, hmin]
      exact ⟨rfl, rfl⟩
  · intro h0 htl
    simp only at h0 htl
    subst h0; subst htl
    unfold Send
    simp
  · intro bs hbs
    by_cases h0 : q = 0
    · subst h0
      unfold Send at hbs
      simp only [ne_eq, not_true_eq_false, if_false] at hbs
      split at hbs
      · split at hbs
        · rename_i hpos
          injection hbs with h
          rw [← h, contigRead_length]
          exact hpos
        · exact absurd hbs (by simp)
      · split at hbs
        · rename_i hpos
          injection hbs with h
          rw [← h, contigRead_length]
          exact hpos
        · exact absurd hbs (by simp)
    · rw [Send_pos C ⟨f, hd, tl, q⟩ h0] at hbs
      exact absurd hbs (by simp)

/-- Witness for **C4** at a concrete instance. -/
theorem send_pump_spec_witness :
    txSampleIdle.sendLength = 0 ∧ txSampleIdle.txHead < 4 ∧ 0 < txSampleIdle.txLength
    ∧ ((Send 4 txSampleIdle).1.sendLength
        = min txSampleIdle.txLength (4 - txSampleIdle.txHead)
       ∧ (Send 4 txSampleIdle).2 = some (contigRead txSampleIdle.txBuffer
           txSampleIdle.txHead (min txSampleIdle.txLength (4 - txSampleIdle.txHead)))) :=
  ⟨rfl, by decide, by decide,
    (send_pump_spec 4 txSampleIdle).2.1 rfl (by decide) (by decide)⟩

lemma Output_accepted (C : Nat) (s : TxState) (w : List Nat) :
    (Output C s w).2.1 = if w.length > C - s.txLength then C - s.txLength else w.length :=
  rfl

lemma Output_txHead (C : Nat) (s : TxState) (w : List Nat) :
    (Output C s w).1.txHead = s.txHead := by
  rw [Output_eq]
  exact (Send_frame C _).1

lemma Output_txLength (C : Nat) (s : TxState) (w : List Nat) :
    (Output C s w).1.txLength = s.txLength +
      (w.take (if w.length > C - s.txLength then C - s.txLength else w.length)).length := by
  rw [Output_eq]
  exact ((Send_frame C _).2.1).trans (txWrite_snd C s.txHead _ s.txBuffer s.txLength)

lemma Output_txBuffer (C : Nat) (s : TxState) (w : List Nat) :
    (Output C s w).1.txBuffer = (txWrite C s.txHead s.txBuffer s.txLength
      (w.take (if w.length > C - s.txLength then C - s.txLength else w.length))).1 := by
  rw [Output_eq]
  exact (Send_frame C _).2.2

/-- **C5**: `Output` accepts exactly `min(len, capacity - mTxLength)` bytes,
copies them at successive offsets `(mTxHead + mTxLength + i) % capacity`,
grows `mTxLength` by the accepted count, returns that count, and returns 0
whenever the ring is already full. -/
theorem output_write_spec (C : Nat) (s : TxState) (w : List Nat) (hl : s.txLength ≤ C) :
    (Output C s w).2.1 = min w.length (C - s.txLength)
    ∧ (Output C s w).1.txLength = s.txLength + min w.length (C - s.txLength)
    ∧ (Output C s w).1.txHead = s.txHead
    ∧ (∀ i, i < min w.length (C - s.txLength) →
        (Output C s w).1.txBuffer ((s.txHead + s.txLength + i) % C) = w.getD i 0)
    ∧ (s.txLength = C → (Output C s w).2.1 = 0) := by
  have hacc : (if w.length > C - s.txLength then C - s.txLength else w.length)
      = min w.length (C - s.txLength) := by
    split <;> omega
  have htakelen : (w.take (min w.length (C - s.txLength))).length
      = min w.length (C - s.txLength) := by
    simp [List.length_take]
  refine ⟨?_, ?_, Output_txHead C s w, ?_, ?_⟩
  · rw [Output_accepted, hacc]
  · rw [Output_txLength, hacc, htakelen]
  · intro i hi
    rw [Output_txBuffer, hacc]
    have h1 : s.txLength + (w.take (min w.length (C - s.txLength))).length ≤ C := by
      rw [htakelen]; omega
    have h2 : i < (w.take (min w.length (C - s.txLength))).length := by
      rw [htakelen]; exact hi
    have hpos : s.txHead + s.txLength + i = s.txHead + (s.txLength + i) := by omega
    rw [hpos, txWrite_at C s.txHead _ s.txBuffer s.txLength i h1 h2]
    have hi2 : i < min w.length (C - s.txLength) := hi
    have hw : i < w.length := by omega
    simp [List.getD_eq_getElem?_getD, List.getElem?_take, hi2, List.getElem?_eq_getElem, hw]
  · intro hfull
    rw [Output_accepted, hacc, hfull]
    simp

/-- Witness for **C5** at a concrete instance. -/
theorem output_write_spec_witness :
    txInit.txLength ≤ 4
    ∧ ((Output 4 txInit [7, 9]).2.1 = min [7, 9].length (4 - txInit.txLength)
       ∧ (Output 4 txInit [7, 9]).1.txLength
           = txInit.txLength + min [7, 9].length (4 - txInit.txLength)
       ∧ (Output 4 txInit [7, 9]).1.txHead = txInit.txHead
       ∧ (∀ i, i < min [7, 9].length (4 - txInit.txLength) →
           (Output 4 txInit [7, 9]).1.txBuffer ((txInit.txHead + txInit.txLength + i) % 4)
             = [7, 9].getD i 0)
       ∧ (txInit.txLength = 4 → (Output 4 txInit [7, 9]).2.1 = 0)) :=
  ⟨by decide, output_write_spec 4 txInit [7, 9] (by decide)⟩

/-- **C6**: while a send is in flight (`mSendLength > 0`), neither `Send`
nor `Output` hands a new span to `otPlatUartSend`, and neither clears the
in-flight marker — only `SendDoneTask` can do that. -/
theorem single_send_in_flight (C : Nat) (s : TxState) (w : List Nat)
    (h : 0 < s.sendLength) :
    (Send C s).2 = none ∧ (Send C s).1 = s
    ∧ (Output C s w).2.2 = none ∧ (Output C s w).1.sendLength = s.sendLength := by
  have h0 : s.sendLength ≠ 0 := by omega
  have hsend := Send_pos C s h0
  have h1 : ({ s with
      txBuffer := (txWrite C s.txHead s.txBuffer s.txLength
        (w.take (if w.length > C - s.txLength then C - s.txLength else w.length))).1,
      txLength := (txWrite C s.txHead s.txBuffer s.txLength
        (w.take (if w.length > C - s.txLength then C - s.txLength else w.length))).2 }
      : TxState).sendLength ≠ 0 := h0
  have hsend1 := Send_pos C _ h1
  refine ⟨by rw [hsend], by rw [hsend], ?_, ?_⟩
  · rw [Output_eq, hsend1]
  · rw [Output_eq, hsend1]

/-- Witness for **C6** at a concrete instance. -/
theorem single_send_in_flight_witness :
    0 < txSampleBusy.sendLength
    ∧ ((Send 4 txSampleBusy).2 = none ∧ (Send 4 txSampleBusy).1 = txSampleBusy
       ∧ (Output 4 txSampleBusy [5]).2.2 = none
       ∧ (Output 4 txSampleBusy [5]).1.sendLength = txSampleBusy.sendLength) :=
  ⟨by decide, single_send_in_flight 4 txSampleBusy [5] (by decide)⟩

/-- **C7**: `SendDoneTask` in any reachable state with no send outstanding
is a no-op — the whole state (head, lengths, buffer) is unchanged and no
span is handed to `otPlatUartSend`. -/
theorem spurious_send_done_noop (C : Nat) (s : TxState) (hC : 0 < C)
    (hr : TxReachable C s) (h0 : s.sendLength = 0) :
    SendDoneTask C s = (s, none) := by
  obtain ⟨hh, hs, hl, hidle⟩ := reachable_inv C hC s hr
  have htl : s.txLength = 0 := hidle h0
  obtain ⟨f, hd, tl, q⟩ := s
  simp only at hh h0 htl
  subst h0; subst htl
  unfold SendDoneTask
  have h1 : (hd + 0) % C = hd := by
    rw [Nat.add_zero]; exact Nat.mod_eq_of_lt hh
  simp only [h1, Nat.sub_zero]
  unfold Send
  simp

/-- Witness for **C7** at a concrete instance. -/
theorem spurious_send_done_noop_witness :
    (0:Nat) < 1 ∧ TxReachable 1 txInit ∧ txInit.sendLength = 0
    ∧ SendDoneTask 1 txInit = (txInit, none) :=
  ⟨by decide, TxReachable.init, rfl,
    spurious_send_done_noop 1 txInit (by decide) TxReachable.init rfl⟩

/-- **C10**: in every reachable state of the Output Ring, `mSendLength = 0`
implies `mTxLength = 0` — the ring is idle only when it is empty. -/
theorem idle_implies_empty (C : Nat) (s : TxState) (hC : 0 < C)
    (hr : TxReachable C s) (h0 : s.sendLength = 0) : s.txLength = 0 :=
  (reachable_inv C hC s hr).2.2.2 h0

/-- Witness for **C10** at a concrete instance. -/
theorem idle_implies_empty_witness :
    (0:Nat) < 1 ∧ TxReachable 1 txInit ∧ txInit.sendLength = 0 ∧ txInit.txLength = 0 :=
  ⟨by decide, TxReachable.init, rfl,
    idle_implies_empty 1 txInit (by decide) TxReachable.init rfl⟩

/-- **C2**: round-trip — for any sequence of `Output` calls whose total
length is at most the capacity, the spans handed to `otPlatUartSend`
(concatenated across all calls, simulating `otPlatUartSendDone` after every
issued send until the ring drains) are exactly the written bytes, in order,
with no loss and no duplication; afterwards the ring is empty and idle. -/
theorem output_round_trip (C : Nat) (hC : 0 < C) (ws : List (List Nat))
    (hsum : (ws.map List.length).sum ≤ C) :
    (runWrites C txInit ws).2 ++ (drainAll C (runWrites C txInit ws).1 C).2 = ws.flatten
    ∧ (drainAll C (runWrites C txInit ws).1 C).1.txLength = 0
    ∧ (drainAll C (runWrites C txInit ws).1 C).1.sendLength = 0 := by
  have hInit : TxInvF C txInit := ⟨hC, Nat.le_refl 0, Nat.zero_le C, fun _ => rfl⟩
  have hUnsentInit : unsentBytes C txInit = [] := by simp [unsentBytes, modRead, txInit]
  obtain ⟨hA, hI1⟩ := runWrites_spec C ws txInit hInit (by show 0 + _ ≤ C; omega)
  obtain ⟨hB, h2, h3⟩ := drainAll_spec C hC C (runWrites C txInit ws).1 hI1 hI1.2.2.1
  refine ⟨?_, h2, h3⟩
  have hU2 : unsentBytes C (drainAll C (runWrites C txInit ws).1 C).1 = [] := by
    unfold unsentBytes
    rw [h2, Nat.zero_sub]
    exact modRead_zero C _ _
  have hsent2 : (drainAll C (runWrites C txInit ws).1 C).2
      = unsentBytes C (runWrites C txInit ws).1 := by
    rw [← hB, hU2, List.append_nil]
  rw [hsent2, hA, hUnsentInit, List.nil_append]

/-- Witness for **C2** at a concrete instance. -/
theorem output_round_trip_witness :
    (0:Nat) < 4 ∧ (([[1, 2], [3]] : List (List Nat)).map List.length).sum ≤ 4
    ∧ ((runWrites 4 txInit [[1, 2], [3]]).2
         ++ (drainAll 4 (runWrites 4 txInit [[1, 2], [3]]).1 4).2
         = ([[1, 2], [3]] : List (List Nat)).flatten
       ∧ (drainAll 4 (runWrites 4 txInit [[1, 2], [3]]).1 4).1.txLength = 0
       ∧ (drainAll 4 (runWrites 4 txInit [[1, 2], [3]]).1 4).1.sendLength = 0) :=
  ⟨by decide, by decide, output_round_trip 4 (by decide) [[1, 2], [3]] (by decide)⟩

/-! ## Facts about the Line Assembler -/

lemma contigRead_zero_last (f : Nat → Nat) (n : Nat) :
    (contigRead f 0 (n + 1)).getLast? = some (f n) := by
  rw [contigRead_succ, List.getLast?_concat]
  simp

lemma contigRead_zero_dropLast (f : Nat → Nat) (n : Nat) :
    (contigRead f 0 (n + 1)).dropLast = contigRead f 0 n := by
  rw [contigRead_succ, List.dropLast_concat]

lemma contigRead_zero_update_high (f : Nat → Nat) (p v len : Nat) (h : len ≤ p) :
    contigRead (Function.update f p v) 0 len = contigRead f 0 len :=
  contigRead_update_out f p v 0 len (fun i hi => by omega)

/-- What `ProcessCommand` does when entered the way `ReceiveTask` enters it:
with `mRxLength = m + 1 > 0` and the `'\0'` terminator just written at index
`m + 1`.  It hands `ProcessLine` the accumulated content with at most one
trailing LF and then one trailing CR stripped, and resets `mRxLength`.
The excluded corner `m = 0 ∧ f 0 = 10` is the one where the source would
index `mRxBuffer[-1]` (undefined behaviour); it is unreachable through
`ReceiveTask`, which never stores a terminator byte. -/
lemma ProcessCommand_spec (f : Nat → Nat) (m : Nat)
    (hsafe : ¬(m = 0 ∧ f 0 = 10)) :
    (ProcessCommand ⟨Function.update f (m + 1) 0, m + 1⟩).1.rxLength = 0
    ∧ (ProcessCommand ⟨Function.update f (m + 1) 0, m + 1⟩).2
        = RxEvent.processLine (stripLine (contigRead f 0 (m + 1)))
            (stripLine (contigRead f 0 (m + 1))).length := by
  have hu1 : Function.update f (m + 1) 0 m = f m :=
    Function.update_noteq (by omega) 0 f
  refine ⟨rfl, ?_⟩
  by_cases hfm : f m = 10
  · have hm : m ≠ 0 := by
      intro h0
      rw [h0] at hfm
      exact hsafe ⟨h0, hfm⟩
    obtain ⟨k, rfl⟩ : ∃ k, m = k + 1 := ⟨m - 1, by omega⟩
    have hstrip1 : stripIf 10 (Function.update f (k + 1 + 1) 0) (k + 1 + 1)
        = (Function.update (Function.update f (k + 1 + 1) 0) (k + 1) 0, k + 1) := by
      have hcond : Function.update f (k + 1 + 1) 0 (k + 1 + 1 - 1) = 10 := by
        rw [(by omega : k + 1 + 1 - 1 = k + 1)]
        rw [hu1]; exact hfm
      unfold stripIf
      rw [if_pos hcond]
      rw [(by omega : k + 1 + 1 - 1 = k + 1)]
    have hu2 : Function.update (Function.update f (k + 1 + 1) 0) (k + 1) 0 k = f k := by
      rw [Function.update_noteq (by omega), Function.update_noteq (by omega)]
    by_cases hfk : f k = 13
    · have hstrip2 : stripIf 13
          (Function.update (Function.update f (k + 1 + 1) 0) (k + 1) 0) (k + 1)
          = (Function.update
              (Function.update (Function.update f (k + 1 + 1) 0) (k + 1) 0) k 0, k) := by
        have hcond : Function.update (Function.update f (k + 1 + 1) 0) (k + 1) 0
            (k + 1 - 1) = 13 := by
          rw [(by omega : k + 1 - 1 = k)]
          rw [hu2]; exact hfk
        unfold stripIf
        rw [if_pos hcond]
        rw [(by omega : k + 1 - 1 = k)]
      simp only [ProcessCommand, hstrip1, hstrip2]
      have hcontent : contigRead (Function.update
          (Function.update (Function.update f (k + 1 + 1) 0) (k + 1) 0) k 0) 0 k
          = contigRead f 0 k := by
        rw [contigRead_zero_update_high _ _ _ _ (Nat.le_refl k),
          contigRead_zero_update_high _ _ _ _ (by omega),
          contigRead_zero_update_high _ _ _ _ (by omega)]
      have hstripline : stripLine (contigRead f 0 (k + 1 + 1)) = contigRead f 0 k := by
        simp [stripLine, contigRead_zero_last, contigRead_zero_dropLast, hfm, hfk]
      rw [hcontent, hstripline, contigRead_length]
    · have hstrip2 : stripIf 13
          (Function.update (Function.update f (k + 1 + 1) 0) (k + 1) 0) (k + 1)
          = (Function.update (Function.update f (k + 1 + 1) 0) (k + 1) 0, k + 1) := by
        have hcond : ¬ (Function.update (Function.update f (k + 1 + 1) 0) (k + 1) 0
            (k + 1 - 1) = 13) := by
          rw [(by omega : k + 1 - 1 = k)]
          rw [hu2]; exact hfk
        unfold stripIf
        rw [if_neg hcond]
      simp only [ProcessCommand, hstrip1, hstrip2]
      have hcontent : contigRead
          (Function.update (Function.update f (k + 1 + 1) 0) (k + 1) 0) 0 (k + 1)
          = contigRead f 0 (k + 1) := by
        rw [contigRead_zero_update_high _ _ _ _ (Nat.le_refl (k + 1)),
          contigRead_zero_update_high _ _ _ _ (by omega)]
      have hstripline : stripLine (contigRead f 0 (k + 1 + 1)) = contigRead f 0 (k + 1) := by
        simp [stripLine, contigRead_zero_last, contigRead_zero_dropLast, hfm, hfk]
      rw [hcontent, hstripline, contigRead_length]
  · have hstrip1 : stripIf 10 (Function.update f (m + 1) 0) (m + 1)
        = (Function.update f (m + 1) 0, m + 1) := by
      have hcond : ¬ (Function.update f (m + 1) 0 (m + 1 - 1) = 10) := by
        rw [(by omega : m + 1 - 1 = m)]
        rw [hu1]; exact hfm
      unfold stripIf
      rw [if_neg hcond]
    by_cases hfm13 : f m = 13
    · have hstrip2 : stripIf 13 (Function.update f (m + 1) 0) (m + 1)
          = (Function.update (Function.update f (m + 1) 0) m 0, m) := by
        have hcond : Function.update f (m + 1) 0 (m + 1 - 1) = 13 := by
          rw [(by omega : m + 1 - 1 = m)]
          rw [hu1]; exact hfm13
        unfold stripIf
        rw [if_pos hcond]
        rw [(by omega : m + 1 - 1 = m)]
      simp only [ProcessCommand, hstrip1, hstrip2]
      have hcontent : contigRead (Function.update (Function.update f (m + 1) 0) m 0) 0 m
          = contigRead f 0 m := by
        rw [contigRead_zero_update_high _ _ _ _ (Nat.le_refl m),
          contigRead_zero_update_high _ _ _ _ (by omega)]
      have hstripline : stripLine (contigRead f 0 (m + 1)) = contigRead f 0 m := by
        simp [stripLine, contigRead_zero_last, contigRead_zero_dropLast, hfm, hfm13]
      rw [hcontent, hstripline, contigRead_length]
    · have hstrip2 : stripIf 13 (Function.update f (m + 1) 0) (m + 1)
          = (Function.update f (m + 1) 0, m + 1) := by
        have hcond : ¬ (Function.update f (m + 1) 0 (m + 1 - 1) = 13) := by
          rw [(by omega : m + 1 - 1 = m)]
          rw [hu1]; exact hfm13
        unfold stripIf
        rw [if_neg hcond]
      simp only [ProcessCommand, hstrip1, hstrip2]
      have hcontent : contigRead (Function.update f (m + 1) 0) 0 (m + 1)
          = contigRead f 0 (m + 1) :=
        contigRead_zero_update_high _ _ _ _ (by omega)
      have hstripline : stripLine (contigRead f 0 (m + 1)) = contigRead f 0 (m + 1) := by
        simp [stripLine, contigRead_zero_last, hfm, hfm13]
      rw [hcontent, hstripline, contigRead_length]

/-! ## The claims about the Line Assembler -/

/-- **C8**: on a CR or LF byte the assembler echoes the canonical CRNL pair;
if the accumulated line is non-empty it invokes `ProcessLine` exactly once
with the accumulated content (at most one trailing CR and one trailing LF
stripped) and its length, and resets `mRxLength` to 0; the prompt `"> "` is
re-emitted afterwards even when the line was empty.  The hypothesis
`hsafe` excludes the single state (`mRxLength = 1` with a stored LF) in
which the source's defensive strip would index `mRxBuffer[-1]` (undefined
behaviour, unreachable through `ReceiveTask`). -/
theorem terminator_line_dispatch (s : RxState) (b : Nat) (hb : b = 13 ∨ b = 10)
    (hsafe : ¬(s.rxLength = 1 ∧ s.rxBuffer 0 = 10)) :
    (s.rxLength = 0 →
      receiveByte s b = (s, [RxEvent.echo [13, 10], RxEvent.echo [62, 32]]))
    ∧ (0 < s.rxLength →
        (receiveByte s b).1.rxLength = 0
        ∧ (receiveByte s b).2
            = [RxEvent.echo [13, 10],
               RxEvent.processLine (stripLine (contigRead s.rxBuffer 0 s.rxLength))
                 (stripLine (contigRead s.rxBuffer 0 s.rxLength)).length,
               RxEvent.echo [62, 32]]) := by
  constructor
  · intro h0
    unfold receiveByte
    rw [if_pos hb, if_neg (by omega)]
  · intro hpos
    have hrecv : receiveByte s b
        = ((ProcessCommand ⟨Function.update s.rxBuffer s.rxLength 0, s.rxLength⟩).1,
           [RxEvent.echo [13, 10],
            (ProcessCommand ⟨Function.update s.rxBuffer s.rxLength 0, s.rxLength⟩).2,
            RxEvent.echo [62, 32]]) := by
      unfold receiveByte
      rw [if_pos hb, if_pos hpos]
    obtain ⟨m, hm⟩ : ∃ m, s.rxLength = m + 1 := ⟨s.rxLength - 1, by omega⟩
    rw [hrecv, hm]
    have hsafe2 : ¬(m = 0 ∧ s.rxBuffer 0 = 10) := by
      intro hand
      exact hsafe ⟨by omega, hand.2⟩
    obtain ⟨hA, hB⟩ := ProcessCommand_spec s.rxBuffer m hsafe2
    exact ⟨hA, by rw [hB]⟩

/-- Witness for **C8** at a concrete instance: a two-byte line `"AB"`
terminated by CR. -/
theorem terminator_line_dispatch_witness :
    ((13 : Nat) = 13 ∨ (13 : Nat) = 10)
    ∧ ¬(rxSampleAA.rxLength = 1 ∧ rxSampleAA.rxBuffer 0 = 10)
    ∧ ((rxSampleAA.rxLength = 0 →
          receiveByte rxSampleAA 13
            = (rxSampleAA, [RxEvent.echo [13, 10], RxEvent.echo [62, 32]]))
       ∧ (0 < rxSampleAA.rxLength →
          (receiveByte rxSampleAA 13).1.rxLength = 0
          ∧ (receiveByte rxSampleAA 13).2
              = [RxEvent.echo [13, 10],
                 RxEvent.processLine
                   (stripLine (contigRead rxSampleAA.rxBuffer 0 rxSampleAA.rxLength))
                   (stripLine (contigRead rxSampleAA.rxBuffer 0 rxSampleAA.rxLength)).length,
                 RxEvent.echo [62, 32]])) :=
  ⟨Or.inl rfl, by decide,
    terminator_line_dispatch rxSampleAA 13 (Or.inl rfl) (by decide)⟩

/-- **C9**: backspace (8) or delete (127) on a non-empty line of length `N`
removes exactly the last byte (`mRxLength` becomes `N - 1`, the line prefix
is unchanged) and echoes exactly the 3-byte erase sequence
`'\b', ' ', '\b'`; on an empty line it is a no-op with no echo. -/
theorem backspace_edit_spec (s : RxState) (b : Nat) (hb : b = 8 ∨ b = 127) :
    (0 < s.rxLength →
      (receiveByte s b).1.rxLength = s.rxLength - 1
      ∧ (receiveByte s b).2 = [RxEvent.echo [8, 32, 8]]
      ∧ contigRead (receiveByte s b).1.rxBuffer 0 (s.rxLength - 1)
          = (contigRead s.rxBuffer 0 s.rxLength).dropLast)
    ∧ (s.rxLength = 0 → receiveByte s b = (s, [])) := by
  have hne : ¬(b = 13 ∨ b = 10) := by rcases hb with rfl | rfl <;> simp
  constructor
  · intro hpos
    have hrecv : receiveByte s b
        = (⟨Function.update s.rxBuffer (s.rxLength - 1) 0, s.rxLength - 1⟩,
           [RxEvent.echo [8, 32, 8]]) := by
      unfold receiveByte
      rw [if_neg hne, if_pos hb, if_pos hpos]
    rw [hrecv]
    refine ⟨rfl, rfl, ?_⟩
    obtain ⟨m, hm⟩ : ∃ m, s.rxLength = m + 1 := ⟨s.rxLength - 1, by omega⟩
    rw [hm, (by omega : m + 1 - 1 = m), contigRead_zero_update_high _ _ _ _ (Nat.le_refl m),
      contigRead_zero_dropLast]
  · intro h0
    unfold receiveByte
    rw [if_neg hne, if_pos hb, if_neg (by omega)]

/-- Witness for **C9** at a concrete instance: backspace on the two-byte
line `"AB"` and on the empty line. -/
theorem backspace_edit_spec_witness :
    ((8 : Nat) = 8 ∨ (8 : Nat) = 127) ∧ 0 < rxSampleAB.rxLength
    ∧ ((receiveByte rxSampleAB 8).1.rxLength = rxSampleAB.rxLength - 1
       ∧ (receiveByte rxSampleAB 8).2 = [RxEvent.echo [8, 32, 8]]
       ∧ contigRead (receiveByte rxSampleAB 8).1.rxBuffer 0 (rxSampleAB.rxLength - 1)
           = (contigRead rxSampleAB.rxBuffer 0 rxSampleAB.rxLength).dropLast)
    ∧ (rxInit.rxLength = 0 ∧ receiveByte rxInit 8 = (rxInit, [])) :=
  ⟨Or.inl rfl, by decide,
    (backspace_edit_spec rxSampleAB 8 (Or.inl rfl)).1 (by decide),
    rfl, (backspace_edit_spec rxInit 8 (Or.inl rfl)).2 rfl⟩

/-- Feeding `n` ordinary bytes (value 97, `'a'`) through `ReceiveTask`:
`mRxLength` grows by exactly `n` with **no bound check whatsoever**, each
byte is stored at the successive index, and cells below the starting length
are untouched.  (`s.rxLength + n < 65536` keeps the `uint16_t` length
counter from wrapping.) -/
lemma receive_plain_bytes (n : Nat) : ∀ (s : RxState), s.rxLength + n < 65536 →
    (ReceiveTask s (List.replicate n 97)).1.rxLength = s.rxLength + n
    ∧ (∀ p, s.rxLength ≤ p → p < s.rxLength + n →
        (ReceiveTask s (List.replicate n 97)).1.rxBuffer p = 97)
    ∧ (∀ p, p < s.rxLength →
        (ReceiveTask s (List.replicate n 97)).1.rxBuffer p = s.rxBuffer p) := by
  induction n with
  | zero =>
    intro s _
    rw [List.replicate_zero, ReceiveTask]
    exact ⟨rfl, fun p h1 h2 => by omega, fun p _ => rfl⟩
  | succ n ih =>
    intro s hbound
    rw [List.replicate_succ, ReceiveTask]
    have hstep : receiveByte s 97
        = (⟨Function.update s.rxBuffer s.rxLength 97, (s.rxLength + 1) % 65536⟩,
           [RxEvent.echo [97]]) := by
      unfold receiveByte
      rw [if_neg (by omega), if_neg (by omega)]
    have hmod : (s.rxLength + 1) % 65536 = s.rxLength + 1 :=
      Nat.mod_eq_of_lt (by omega)
    rw [hstep, hmod]
    obtain ⟨ih1, ih2, ih3⟩ :=
      ih ⟨Function.update s.rxBuffer s.rxLength 97, s.rxLength + 1⟩ (by simp; omega)
    refine ⟨by rw [ih1]; show s.rxLength + 1 + n = s.rxLength + (n + 1); omega, ?_, ?_⟩
    · intro p hp1 hp2
      by_cases hp : p = s.rxLength
      · rw [hp, ih3 s.rxLength (by simp)]
        exact Function.update_same s.rxLength 97 s.rxBuffer
      · refine (ih2 p (by simp; omega) ?_)
        show p < s.rxLength + 1 + n
        omega
    · intro p hp
      rw [ih3 p (by simp; omega)]
      exact Function.update_noteq (by omega) 97 s.rxBuffer

/-- **C1** (evidence): the receive path of `ReceiveTask` has no bound
check.  Feeding `kRxBufferSize + 1` ordinary bytes into a freshly
constructed assembler leaves `mRxLength = kRxBufferSize + 1 > kRxBufferSize`
and stores a byte at index `kRxBufferSize` — one past the last valid index
of the `kRxBufferSize`-byte array — refuting the claimed bound
`mRxLength ∈ [0, kRxBufferSize)`. -/
theorem rx_overflow_unbounded :
    (ReceiveTask rxInit (List.replicate (kRxBufferSize + 1) 97)).1.rxLength
        = kRxBufferSize + 1
    ∧ (ReceiveTask rxInit (List.replicate (kRxBufferSize + 1) 97)).1.rxBuffer kRxBufferSize
        = 97
    ∧ ¬ (kRxBufferSize + 1 < kRxBufferSize) := by
  obtain ⟨h1, h2, h3⟩ := receive_plain_bytes (kRxBufferSize + 1) rxInit
    (by show 0 + (kRxBufferSize + 1) < 65536; unfold kRxBufferSize; omega)
  refine ⟨?_, ?_, by omega⟩
  · rw [h1]
    show 0 + (kRxBufferSize + 1) = kRxBufferSize + 1
    omega
  · refine h2 kRxBufferSize (Nat.zero_le _) ?_
    show kRxBufferSize < 0 + (kRxBufferSize + 1)
    omega

end CliUart
